import Mathlib

/-!
Verification of the TOC-to-pdfmark converter tox.py.

The embedding models the pipeline of tox.py: `tokenize` (regex
tokenization of toc lines, with the fallback subcounter state),
`apply_page_offset`, `tree_ize` with the `get_matching_prfx` child policy,
`pdfmark_toc`, and `splitfiles`.  Python dynamic values appearing in the
page field are modelled by the sum type `PyVal`; file lines are given
without their trailing newline (the regexes' trailing `$` before a final
newline is equivalent to end-of-string on the stripped line, since no
other part of either pattern can consume the final newline and still let
`\d+$` succeed).  The regex character classes are modelled over their
ASCII ranges, which cover the toc inputs the script documents.
-/

namespace Tox

/-- A Python value held in a record's page field: either a string (as
matched by the tokenizer) or an integer (after int() conversion). -/
inductive PyVal where
  | str (s : String)
  | int (n : Int)
deriving DecidableEq

/-- A toc record of tox.py: (chapter_number, title, page). -/
abbrev Record := String × String × PyVal

/-- ASCII decimal digit, the class \d as it applies to the toc input. -/
def isDigitCh (c : Char) : Bool := '0' ≤ c && c ≤ '9'

/-- Whitespace, the class \s as it applies to the toc input. -/
def isSpaceCh (c : Char) : Bool :=
  c == ' ' || c == '\t' || c == '\n' || c == '\r' || c == '\x0b' || c == '\x0c'

/-- Uppercase letter, the class [A-Z]. -/
def isUpperCh (c : Char) : Bool := 'A' ≤ c && c ≤ 'Z'

/-- The class [0-9.] of the chapter-number group. -/
def isNumDotCh (c : Char) : Bool := isDigitCh c || c == '.'

/-- Backtracking match of the tail pattern (.*)\s(\d+)$ against a list of
characters, with Python's leftmost-greedy semantics: since the first group
is greedy, the split is taken at the last whitespace character that is
followed by a nonempty all-digit suffix.  Returns the characters of the
title group and of the page group. -/
def splitTitlePage : List Char → Option (List Char × List Char)
  | [] => none
  | c :: rest =>
    match splitTitlePage rest with
    | some (t, p) => some (c :: t, p)
    | none =>
      if isSpaceCh c && !rest.isEmpty && rest.all isDigitCh then
        some ([], rest)
      else none

/-- Continue a candidate chapter-number group: the pattern next requires a
single \s character and then the title/page tail. -/
def afterNum (numCs : List Char) : List Char → Option (String × String × String)
  | [] => none
  | c :: tail =>
    if isSpaceCh c then
      (splitTitlePage tail).map fun tp =>
        (String.mk numCs, String.mk tp.1, String.mk tp.2)
    else none

/-- Backtrack the greedy star [0-9.]* of the chapter-number group: the
longest run is tried first, then one character is given back at a time.
`runRev` holds, reversed, the part of the run still kept in the candidate. -/
def tryNumBack (pre : List Char) (runRev : List Char) (rest : List Char) :
    Option (String × String × String) :=
  match afterNum (pre ++ runRev.reverse) rest with
  | some r => some r
  | none =>
    match runRev with
    | [] => none
    | c :: rs => tryNumBack pre rs (c :: rest)

/-- One choice of the optional group: run the greedy [0-9.]* star from s
(longest first, with backtracking) after the fixed part pre of the
chapter-number group. -/
def tryStar (pre s : List Char) : Option (String × String × String) :=
  tryNumBack pre (s.takeWhile isNumDotCh).reverse (s.dropWhile isNumDotCh)

/-- Backtracking match of tox.py's primary pattern
^((?:[A-Z]\.)?[0-9.]*)\s(.*)\s(\d+)$ : the greedy optional
uppercase-letter-and-dot group is tried first and given up only when no
continuation of it matches; within each choice the [0-9.]* star
backtracks from its longest run. -/
def matchPrimary (cs : List Char) : Option (String × String × String) :=
  match cs with
  | u :: d :: rest =>
    if isUpperCh u && d == '.' then
      match tryStar [u, d] rest with
      | some r => some r
      | none => tryStar [] (u :: d :: rest)
    else tryStar [] (u :: d :: rest)
  | _ => tryStar [] cs

/-- Match of tox.py's fallback pattern ^(.*)\s(\d+)$. -/
def matchAlt (cs : List Char) : Option (String × String) :=
  (splitTitlePage cs).map fun tp => (String.mk tp.1, String.mk tp.2)

/-- The line loop of tox.py tokenize, threading the implicit state
(prev_num, cnt): a primary match yields its record and resets the state, a
fallback match synthesizes the chapter number from the state and bumps the
counter, and a line matching neither is skipped. -/
def tokenizeGo : List String → String → Nat → List Record
  | [], _, _ => []
  | line :: rest, prev_num, cnt =>
    match matchPrimary line.toList with
    | some (num, title, page) =>
      (num, title, PyVal.str page) :: tokenizeGo rest num 1
    | none =>
      match matchAlt line.toList with
      | some (title, page) =>
        (prev_num ++ "." ++ toString cnt, title, PyVal.str page) ::
          tokenizeGo rest prev_num (cnt + 1)
      | none => tokenizeGo rest prev_num cnt

/-- tox.py tokenize on the lines of the toc file (without trailing
newlines), starting from prev_num = "" and cnt = 1. -/
def tokenize (lines : List String) : List Record := tokenizeGo lines "" 1

/-- Python int() on the all-digit page strings the tokenizer produces. -/
def digitsToInt (s : String) : Int :=
  Int.ofNat (s.toList.foldl (fun a c => a * 10 + (c.toNat - '0'.toNat)) 0)

/-- Python int(page): the page is either already an integer or one of the
tokenizer's digit strings. -/
def pyToInt : PyVal → Int
  | PyVal.int n => n
  | PyVal.str s => digitsToInt s

/-- tox.py apply_page_offset: replace every record's page by
int(page) + offset, keeping chapter number and title. -/
def apply_page_offset (records : List Record) (offset : Int) : List Record :=
  records.map fun r => (r.1, r.2.1, PyVal.int (pyToInt r.2.2 + offset))

/-- Python str.startswith, on the character lists of the two strings. -/
def startswith (s pre : String) : Bool := pre.toList.isPrefixOf s.toList

/-- tox.py get_matching_prfx: the records whose chapter number starts with
the parent record's chapter number. -/
def get_matching_prfx (parent_rec : Record) (records : List Record) :
    List Record :=
  records.filter fun r => startswith r.1 parent_rec.1

/-- A node of the toc tree, as built by tree_ize: (node_data, children). -/
inductive Node where
  | mk (data : Record) (children : List Node)

/-- The record of a node. -/
def Node.data : Node → Record
  | Node.mk d _ => d

/-- The child list of a node. -/
def Node.children : Node → List Node
  | Node.mk _ cs => cs

/-- Python list.remove: delete the first occurrence of a from the list
(and do nothing when a is absent, a case the callers never reach). -/
def pyremove [DecidableEq α] : List α → α → List α
  | [], _ => []
  | b :: t, a => if b = a then t else b :: pyremove t a

theorem pyremove_sublist [DecidableEq α] (l : List α) (a : α) :
    List.Sublist (pyremove l a) l := by
  induction l with
  | nil => simp [pyremove]
  | cons b t ih =>
    rw [pyremove]
    by_cases hb : b = a
    · simp only [hb, if_pos rfl]
      exact List.sublist_cons_self a t
    · simp only [if_neg hb]
      exact ih.cons₂ b

theorem length_foldl_pyremove [DecidableEq α] (cs l : List α) :
    (List.foldl pyremove l cs).length ≤ l.length := by
  induction cs generalizing l with
  | nil => simp
  | cons c cs ih =>
    exact le_trans (ih (pyremove l c)) (pyremove_sublist l c).length_le

/-- tox.py tree_ize: pop the first record of the pool as a parent, collect
its children with find_children, remove each of them from the pool (Python
list.remove, first occurrence), and recurse on the collected children.
The hypothesis hfc says that find_children returns a sub-multiset of the
pool it is given — exactly the condition under which every Python removal
succeeds and the loop terminates. -/
def tree_ize (fc : Record → List Record → List Record)
    (hfc : ∀ p r, List.Subperm (fc p r) r) : List Record → List Node
  | [] => []
  | parent :: rest =>
    Node.mk parent (tree_ize fc hfc (fc parent rest)) ::
      tree_ize fc hfc (List.foldl pyremove rest (fc parent rest))
termination_by l => l.length
decreasing_by
  · simp only [List.length_cons]
    exact Nat.lt_succ_of_le (hfc parent rest).length_le
  · simp only [List.length_cons]
    exact Nat.lt_succ_of_le (length_foldl_pyremove _ _)

/-- tox.py deep_len: number of nodes of the forest, counted recursively. -/
def deep_len : List Node → Nat
  | [] => 0
  | Node.mk _ cs :: rest => (1 + deep_len cs) + deep_len rest

/-- The depth-first pre-order node sequence of a forest: every node comes
before all of its descendants, siblings in their original order. -/
def preorder : List Node → List Node
  | [] => []
  | Node.mk d cs :: rest => Node.mk d cs :: (preorder cs ++ preorder rest)

/-- Python str() as applied to a page value by the format calls. -/
def PyVal.toStr : PyVal → String
  | PyVal.str s => s
  | PyVal.int n => toString n

/-- The one pdfmark directive line that pdfmark_toc emits for a node: a
/Count field holding the negated direct-child count is present exactly
when the node has children. -/
def node_line (n : Node) : String :=
  if n.children.length = 0 then
    "[/Title (" ++ n.data.1 ++ ": " ++ n.data.2.1 ++ ") /Page " ++
      PyVal.toStr n.data.2.2 ++ " /OUT pdfmark\n"
  else
    "[/Count -" ++ toString n.children.length ++ " /Title (" ++ n.data.1 ++
      ": " ++ n.data.2.1 ++ ") /Page " ++ PyVal.toStr n.data.2.2 ++
      " /OUT pdfmark\n"

/-- The string pat occurs contiguously inside the string s. -/
def containsStr (s pat : String) : Prop :=
  ∃ u v, u ++ pat.toList ++ v = s.toList

/-- The string s begins with the string pat. -/
def strBegins (s pat : String) : Prop :=
  ∃ t, pat.toList ++ t = s.toList

/-- tox.py pdfmark_toc: for each node of the forest in order, emit its
directive line; for a node with children, recursively emit the
descendants' lines right after its own. -/
def pdfmark_toc : List Node → List String
  | [] => []
  | Node.mk d cs :: rest =>
    if cs.length = 0 then
      ("[/Title (" ++ d.1 ++ ": " ++ d.2.1 ++ ") /Page " ++
        PyVal.toStr d.2.2 ++ " /OUT pdfmark\n") :: pdfmark_toc rest
    else
      ("[/Count -" ++ toString cs.length ++ " /Title (" ++ d.1 ++ ": " ++
        d.2.1 ++ ") /Page " ++ PyVal.toStr d.2.2 ++ " /OUT pdfmark\n") ::
        (pdfmark_toc cs ++ pdfmark_toc rest)

/-- The chunks of tox.py splitfiles for the positive chunk size m + 1: the
chunk tagged with index i holds the next m + 1 lines. -/
def splitChunks (m : Nat) : List String → Nat → List (Nat × List String)
  | [], _ => []
  | a :: rest, i =>
    (i, (a :: rest).take (m + 1)) ::
      splitChunks m ((a :: rest).drop (m + 1)) (i + (m + 1))
termination_by l _ => l.length
decreasing_by
  simp only [List.length_drop, List.length_cons]
  omega

/-- tox.py splitfiles: Python range(0, len(l), n) raises ValueError for
n = 0, modelled as none; for positive n the generator yields
(i, l[i:i+n]) for i = 0, n, 2n, .... -/
def splitfiles (l : List String) (n : Nat) : Option (List (Nat × List String)) :=
  match n with
  | 0 => none
  | m + 1 => some (splitChunks m l 0)

/-- State of the tokenizer as the spec describes it: the previous explicit
chapter number and the running subcounter. -/
structure TokState where
  prev_num : String
  sub : Nat

/-- Modelled from the spec's words, for one line: a primary match resets
the subcounter to 1; a fallback match synthesizes the chapter number
prev_num.subcounter and then increments the subcounter; a line matching
neither pattern yields no record and leaves the state unchanged. -/
def tokStep (st : TokState) (line : String) : TokState × Option Record :=
  match matchPrimary line.toList with
  | some (num, title, page) =>
    (⟨num, 1⟩, some (num, title, PyVal.str page))
  | none =>
    match matchAlt line.toList with
    | some (title, page) =>
      (⟨st.prev_num, st.sub + 1⟩,
        some (st.prev_num ++ "." ++ toString st.sub, title, PyVal.str page))
    | none => (st, none)

/-- The tokenizer as the spec describes it: a left fold of tokStep over
the lines with explicit state, collecting the emitted records. -/
def tokenizeSpec (lines : List String) : List Record :=
  (lines.foldl
    (fun acc line =>
      ((acc.1 ++ (tokStep acc.2 line).2.toList, (tokStep acc.2 line).1) :
        List Record × TokState))
    ([], ⟨"", 1⟩)).1

/-! ### Pool bookkeeping of tree_ize -/

theorem perm_cons_pyremove [DecidableEq α] {a : α} {l : List α} (h : a ∈ l) :
    List.Perm l (a :: pyremove l a) := by
  induction l with
  | nil => cases h
  | cons b t ih =>
    rw [pyremove]
    by_cases hb : b = a
    · subst hb
      simp
    · simp only [if_neg hb]
      have ha : a ∈ t := by
        rcases List.mem_cons.mp h with h1 | h1
        · exact absurd h1.symm hb
        · exact h1
      exact ((ih ha).cons b).trans (List.Perm.swap a b (pyremove t a))

theorem count_pyremove [DecidableEq α] (l : List α) (a x : α) (h : a ∈ l) :
    List.count x l = List.count x (pyremove l a) + (if a = x then 1 else 0) := by
  have hp := (perm_cons_pyremove h).count_eq x
  rw [hp, List.count_cons]
  simp [beq_iff_eq]

theorem subperm_pyremove_of_cons [DecidableEq α] {c : α} {cs l : List α}
    (h : List.Subperm (c :: cs) l) : List.Subperm cs (pyremove l c) := by
  have hcount := List.subperm_ext_iff.mp h
  have hc : c ∈ l := h.subset (List.mem_cons_self c cs)
  refine List.subperm_ext_iff.mpr fun x hx => ?_
  have hxl := hcount x (List.mem_cons_of_mem c hx)
  have heq := count_pyremove l c x hc
  rw [List.count_cons] at hxl
  by_cases hcx : c = x
  · subst hcx
    simp only [if_pos rfl] at heq
    simp only [beq_iff_eq, if_pos rfl] at hxl
    omega
  · simp only [if_neg hcx] at heq
    simp only [beq_iff_eq, if_neg hcx] at hxl
    omega

/-- Removing a sub-multiset cs from l one element at a time (the Python
remove calls of tree_ize) leaves exactly the complement: l is a
permutation of cs followed by the leftovers. -/
theorem perm_append_foldl_pyremove [DecidableEq α] (cs : List α) :
    ∀ l, List.Subperm cs l →
      List.Perm l (cs ++ List.foldl pyremove l cs) := by
  induction cs with
  | nil => intro l _; simp
  | cons c cs ih =>
    intro l h
    have hc : c ∈ l := h.subset (List.mem_cons_self c cs)
    have h2 := subperm_pyremove_of_cons h
    have ihl := ih (pyremove l c) h2
    have h1 : List.Perm l (c :: pyremove l c) := perm_cons_pyremove hc
    simp only [List.foldl_cons]
    exact h1.trans (ihl.cons c)

theorem foldl_pyremove_sublist [DecidableEq α] (cs : List α) :
    ∀ l : List α, List.Sublist (List.foldl pyremove l cs) l := by
  induction cs with
  | nil => intro l; simp
  | cons c cs ih =>
    intro l
    simp only [List.foldl_cons]
    exact (ih (pyremove l c)).trans (pyremove_sublist l c)

/-- get_matching_prfx picks a sublist of the pool (it is a filter). -/
theorem get_matching_prfx_sublist (p : Record) (r : List Record) :
    List.Sublist (get_matching_prfx p r) r :=
  List.filter_sublist r

/-- get_matching_prfx returns a sub-multiset of the pool, so it is an
admissible find_children policy for tree_ize. -/
theorem get_matching_prfx_subperm : ∀ (p : Record) (r : List Record),
    List.Subperm (get_matching_prfx p r) r :=
  fun p r => (get_matching_prfx_sublist p r).subperm

/-- Flattening the tree in pre-order gives back the input up to
permutation, for every admissible find_children policy. -/
theorem preorder_tree_ize_perm (fc : Record → List Record → List Record)
    (hfc : ∀ p r, List.Subperm (fc p r) r) (l : List Record) :
    List.Perm ((preorder (tree_ize fc hfc l)).map Node.data) l := by
  have key : ∀ (n : Nat) (l : List Record), l.length ≤ n →
      List.Perm ((preorder (tree_ize fc hfc l)).map Node.data) l := by
    intro n
    induction n with
    | zero =>
      intro l hl
      have hnil : l = [] := List.eq_nil_of_length_eq_zero (Nat.le_zero.mp hl)
      subst hnil
      simp [tree_ize, preorder]
    | succ n ih =>
      intro l hl
      match l with
      | [] => simp [tree_ize, preorder]
      | parent :: rest =>
        have hrest : rest.length ≤ n := by
          simpa [Nat.succ_le_succ_iff] using hl
        have hch : (fc parent rest).length ≤ n :=
          le_trans (hfc parent rest).length_le hrest
        have hrem : (List.foldl pyremove rest (fc parent rest)).length ≤ n :=
          le_trans (length_foldl_pyremove _ _) hrest
        rw [tree_ize, preorder]
        simp only [List.map_cons, List.map_append, Node.data]
        have p1 := ih _ hch
        have p2 := ih _ hrem
        have hsplit := perm_append_foldl_pyremove (fc parent rest) rest
          (hfc parent rest)
        exact ((p1.append p2).trans hsplit.symm).cons parent
  exact key l.length l le_rfl

/-! ### Pre-order emission -/

theorem toList_append (a b : String) : (a ++ b).toList = a.toList ++ b.toList := rfl

theorem preorder_length : ∀ t : List Node, (preorder t).length = deep_len t
  | [] => by simp [preorder, deep_len]
  | Node.mk d cs :: rest => by
    rw [preorder, deep_len]
    simp only [List.length_cons, List.length_append,
      preorder_length cs, preorder_length rest]
    omega

theorem pdfmark_toc_eq_map :
    ∀ t : List Node, pdfmark_toc t = (preorder t).map node_line
  | [] => by simp [pdfmark_toc, preorder]
  | Node.mk d cs :: rest => by
    rw [pdfmark_toc, preorder]
    by_cases h : cs.length = 0
    · have hcs : cs = [] := List.eq_nil_of_length_eq_zero h
      subst hcs
      rw [pdfmark_toc_eq_map rest]
      simp [node_line, Node.children, Node.data, preorder]
    · rw [if_neg h]
      rw [pdfmark_toc_eq_map cs, pdfmark_toc_eq_map rest]
      simp [node_line, Node.children, Node.data, if_neg h]

/-- C1: for every finite record list, flattening the tree built by
tree_ize with the default prefix-matching policy by depth-first pre-order
traversal yields the same multiset of records as the input: no record is
lost and none is duplicated. -/
theorem tree_ize_flatten_perm (records : List Record) :
    List.Perm
      ((preorder (tree_ize get_matching_prfx get_matching_prfx_subperm
        records)).map Node.data)
      records :=
  preorder_tree_ize_perm get_matching_prfx get_matching_prfx_subperm records

/-- C10: for every find_children policy that returns a sub-multiset of the
remaining pool (the condition under which every Python list.remove call
succeeds), tree_ize is a total function on finite record lists — in the
embedding it is defined by well-founded recursion on the pool size, each
recursive call running on a strictly smaller pool — and the finite tree it
produces has exactly one node per input record. -/
theorem tree_ize_terminates_node_count
    (fc : Record → List Record → List Record)
    (hfc : ∀ p r, List.Subperm (fc p r) r) (records : List Record) :
    deep_len (tree_ize fc hfc records) = records.length := by
  have h1 := (preorder_tree_ize_perm fc hfc records).length_eq
  rwa [List.length_map, preorder_length] at h1

/-- Witness for C10: the default policy on a three-record list. -/
theorem tree_ize_terminates_node_count_witness :
    deep_len (tree_ize get_matching_prfx get_matching_prfx_subperm
      [("1.", "Intro", PyVal.int 2), ("1.1", "Background", PyVal.int 3),
        ("2.", "Results", PyVal.int 5)]) = 3 :=
  tree_ize_terminates_node_count get_matching_prfx get_matching_prfx_subperm _

/-- C3: pdfmark_toc emits exactly one directive line per node of the
forest, in depth-first pre-order — every parent's line precedes all of its
descendants' lines and sibling subtrees keep their order — and the output
is finite: it is exactly the node_line image of the pre-order node
sequence, with length equal to the node count deep_len. -/
theorem pdfmark_toc_preorder_lines (t : List Node) :
    pdfmark_toc t = (preorder t).map node_line ∧
      (pdfmark_toc t).length = deep_len t := by
  refine ⟨pdfmark_toc_eq_map t, ?_⟩
  rw [pdfmark_toc_eq_map t, List.length_map, preorder_length]

theorem containsStr_of_split (s a b c : String) (h : s = a ++ (b ++ c)) :
    containsStr s b := by
  refine ⟨a.toList, c.toList, ?_⟩
  rw [h]
  simp [toList_append, List.append_assoc]

/-- C2: for every tree and every node in it, the directive line that
pdfmark_toc emits for that node is its node_line, one member of the
emitted list; when the node has k > 0 direct children the line contains
the field /Count -k whose magnitude k is exactly the direct-child count,
and when it has none the line is produced by the Count-free leaf template:
it starts with the /Title field and does not start with a /Count field
(in the emitted language a /Count field only ever opens a line). -/
theorem pdfmark_count_children (t : List Node) (n : Node)
    (h : n ∈ preorder t) :
    node_line n ∈ pdfmark_toc t ∧
      (0 < n.children.length →
        containsStr (node_line n)
          ("/Count -" ++ toString n.children.length)) ∧
      (n.children.length = 0 →
        node_line n =
          "[/Title (" ++ n.data.1 ++ ": " ++ n.data.2.1 ++ ") /Page " ++
            PyVal.toStr n.data.2.2 ++ " /OUT pdfmark\n" ∧
          strBegins (node_line n) "[/Title (" ∧
          ¬ strBegins (node_line n) "[/Count") := by
  refine ⟨?_, ?_, ?_⟩
  · rw [pdfmark_toc_eq_map]
    exact List.mem_map_of_mem node_line h
  · intro hpos
    rw [node_line, if_neg (Nat.pos_iff_ne_zero.mp hpos)]
    refine containsStr_of_split _ "["
      ("/Count -" ++ toString n.children.length)
      (" /Title (" ++ n.data.1 ++ ": " ++ n.data.2.1 ++ ") /Page " ++
        PyVal.toStr n.data.2.2 ++ " /OUT pdfmark\n") ?_
    have hlit : "[/Count -" = "[" ++ "/Count -" := by decide
    simp only [String.append_assoc]
    rw [hlit]
    simp only [String.append_assoc]
  · intro hz
    have hline : node_line n =
        "[/Title (" ++ n.data.1 ++ ": " ++ n.data.2.1 ++ ") /Page " ++
          PyVal.toStr n.data.2.2 ++ " /OUT pdfmark\n" := by
      rw [node_line, if_pos hz]
    refine ⟨hline, ?_, ?_⟩
    · refine ⟨(n.data.1 ++ ": " ++ n.data.2.1 ++ ") /Page " ++
        PyVal.toStr n.data.2.2 ++ " /OUT pdfmark\n").toList, ?_⟩
      rw [hline]
      simp [toList_append, List.append_assoc]
    · rintro ⟨tl, htl⟩
      rw [hline] at htl
      have hcount : "[/Count".toList = ['[', '/', 'C', 'o', 'u', 'n', 't'] := by
        decide
      have htitle : "[/Title (".toList =
          ['[', '/', 'T', 'i', 't', 'l', 'e', ' ', '('] := by decide
      rw [toList_append, toList_append, toList_append, toList_append,
        toList_append, toList_append] at htl
      rw [hcount, htitle] at htl
      have h2 := congrArg (fun l => l[2]?) htl
      simp at h2

/-- Witness for C2: a childless node inside a singleton tree. -/
theorem pdfmark_count_children_witness :
    node_line (Node.mk ("1.", "Intro", PyVal.int 2) []) ∈
      pdfmark_toc [Node.mk ("1.", "Intro", PyVal.int 2) []] :=
  (pdfmark_count_children [Node.mk ("1.", "Intro", PyVal.int 2) []]
    (Node.mk ("1.", "Intro", PyVal.int 2) []) (by simp [preorder])).1

/-! ### Chunking -/

theorem splitChunks_flatten (m : Nat) :
    ∀ (l : List String) (i : Nat),
      ((splitChunks m l i).map Prod.snd).flatten = l
  | [], _ => by simp [splitChunks]
  | a :: rest, i => by
    rw [splitChunks]
    simp only [List.map_cons, List.flatten_cons]
    rw [splitChunks_flatten m ((a :: rest).drop (m + 1)) (i + (m + 1))]
    exact List.take_append_drop (m + 1) (a :: rest)
termination_by l _ => l.length
decreasing_by
  simp only [List.length_drop, List.length_cons]
  omega

theorem splitChunks_index (m : Nat) :
    ∀ (l : List String) (i : Nat) (c : Nat × List String),
      c ∈ splitChunks m l i →
        ∃ d, c.1 = i + d ∧ c.2 = (l.drop d).take (m + 1)
  | [], _, _, h => by simp [splitChunks] at h
  | a :: rest, i, c, h => by
    rw [splitChunks] at h
    rcases List.mem_cons.mp h with h1 | h1
    · exact ⟨0, by simp [h1], by simp [h1]⟩
    · obtain ⟨d, hd1, hd2⟩ :=
        splitChunks_index m ((a :: rest).drop (m + 1)) (i + (m + 1)) c h1
      refine ⟨(m + 1) + d, by omega, ?_⟩
      rw [hd2, List.drop_drop]
termination_by l _ _ _ => l.length
decreasing_by
  simp only [List.length_drop, List.length_cons]
  omega

/-- C5 amended: for every positive chunk size n, splitfiles partitions the
line list into consecutive chunks of at most n lines, each tagged with the
zero-based index of its first line, and concatenating the chunks in order
reconstructs the input exactly — no line duplicated, dropped or reordered.
(At n = 0 the Python generator raises ValueError instead, see the
counterexample.) -/
theorem splitfiles_partition (L : List String) (n : Nat) (hn : 0 < n) :
    ∃ cs, splitfiles L n = some cs ∧
      (cs.map Prod.snd).flatten = L ∧
      ∀ c ∈ cs, c.2.length ≤ n ∧ c.2 = (L.drop c.1).take n := by
  match n, hn with
  | m + 1, _ =>
    refine ⟨splitChunks m L 0, rfl, splitChunks_flatten m L 0, ?_⟩
    intro c hc
    obtain ⟨d, hd1, hd2⟩ := splitChunks_index m L 0 c hc
    have hd0 : c.1 = d := by omega
    refine ⟨?_, ?_⟩
    · rw [hd2]
      exact List.length_take_le _ _
    · rw [hd2, hd0]

/-- Witness for C5 at chunk size 2 on a three-line list. -/
theorem splitfiles_partition_witness :
    ∃ cs, splitfiles ["a", "b", "c"] 2 = some cs ∧
      (cs.map Prod.snd).flatten = ["a", "b", "c"] ∧
      ∀ c ∈ cs, c.2.length ≤ 2 ∧ c.2 = ((["a", "b", "c"].drop c.1).take 2) :=
  splitfiles_partition ["a", "b", "c"] 2 (by decide)

/-- C5 counterexample: the claim also asserts the partition for the
non-negative chunk size 0, but there Python's range(0, len(l), 0) raises
ValueError (modelled as none), so no chunk list is produced at all and
nothing reconstructs the input. -/
theorem splitfiles_zero_cex :
    splitfiles ["a"] 0 = none ∧
      ¬ ∃ cs, splitfiles ["a"] 0 = some cs ∧
        (cs.map Prod.snd).flatten = ["a"] := by
  refine ⟨rfl, ?_⟩
  rintro ⟨cs, hcs, -⟩
  simp [splitfiles] at hcs

/-! ### Page offset -/

/-- C4 counterexample: on the record sequence the pipeline produces for
the line "1. Intro 2" the tokenizer's page is the string "2"; offset 0
replaces it by the integer 2 (int conversion happens inside
apply_page_offset), so the output sequence differs from the input. -/
theorem apply_page_offset_zero_cex :
    apply_page_offset (tokenize ["1. Intro 2"]) 0 ≠ tokenize ["1. Intro 2"] := by
  decide

/-- C4 amended: with offset 0, apply_page_offset leaves every chapter
number and title unchanged and replaces every page by its int() value, so
it is the identity exactly on record sequences whose pages are already
integers (the data model's records); on tokenizer output it converts the
string pages to the corresponding integers. -/
theorem apply_page_offset_zero_id (records : List Record)
    (h : ∀ r ∈ records, ∃ m : Int, r.2.2 = PyVal.int m) :
    apply_page_offset records 0 = records := by
  induction records with
  | nil => rfl
  | cons r rs ih =>
    obtain ⟨m, hm⟩ := h r (List.mem_cons_self r rs)
    have ihr := ih fun q hq => h q (List.mem_cons_of_mem r hq)
    obtain ⟨a, b, p⟩ := r
    simp only at hm
    subst hm
    have hcons : apply_page_offset ((a, b, PyVal.int m) :: rs) 0 =
        (a, b, PyVal.int (pyToInt (PyVal.int m) + 0)) :: apply_page_offset rs 0 :=
      rfl
    rw [hcons, ihr]
    simp [pyToInt]

/-- Witness for C4 amended on an integer-paged record list. -/
theorem apply_page_offset_zero_id_witness :
    apply_page_offset [("1.", "Intro", PyVal.int 2)] 0 =
      [("1.", "Intro", PyVal.int 2)] :=
  apply_page_offset_zero_id [("1.", "Intro", PyVal.int 2)]
    (fun r hr => ⟨2, by rw [List.mem_singleton.mp hr]⟩)

/-- C8: for every record sequence with integer pages and every integer
offset (zero or negative allowed), apply_page_offset preserves length and
order — one output record per input record — leaves chapter number and
title unchanged, and replaces the page by page + offset. -/
theorem apply_page_offset_frame (records : List Record) (offset : Int)
    (h : ∀ r ∈ records, ∃ m : Int, r.2.2 = PyVal.int m) :
    (apply_page_offset records offset).length = records.length ∧
      ∀ (i : Nat) (hi : i < records.length),
        ∃ m : Int, (records.get ⟨i, hi⟩).2.2 = PyVal.int m ∧
          (apply_page_offset records offset).get
            ⟨i, by rw [apply_page_offset, List.length_map]; exact hi⟩ =
            ((records.get ⟨i, hi⟩).1, (records.get ⟨i, hi⟩).2.1,
              PyVal.int (m + offset)) := by
  refine ⟨by simp [apply_page_offset], ?_⟩
  intro i hi
  obtain ⟨m, hm⟩ := h (records.get ⟨i, hi⟩) (records.get_mem i hi)
  refine ⟨m, hm, ?_⟩
  simp only [apply_page_offset, List.get_eq_getElem, List.getElem_map]
  rw [List.get_eq_getElem] at hm
  rw [hm]
  simp [pyToInt]

/-- Witness for C8: a one-record list with a negative offset. -/
theorem apply_page_offset_frame_witness :
    (apply_page_offset [("1.", "Intro", PyVal.int 2)] (-1)).length = 1 :=
  (apply_page_offset_frame [("1.", "Intro", PyVal.int 2)] (-1)
    (fun r hr => ⟨2, by rw [List.mem_singleton.mp hr]⟩)).1

/-! ### Tokenizer state -/

theorem tokenizeGo_foldl (lines : List String) :
    ∀ (acc : List Record) (st : TokState),
      (lines.foldl
        (fun a line =>
          ((a.1 ++ (tokStep a.2 line).2.toList, (tokStep a.2 line).1) :
            List Record × TokState))
        (acc, st)).1 = acc ++ tokenizeGo lines st.prev_num st.sub := by
  induction lines with
  | nil => intro acc st; simp [tokenizeGo]
  | cons line rest ih =>
    intro acc st
    simp only [List.foldl_cons]
    rw [ih]
    cases hp : matchPrimary line.toList with
    | some r =>
      obtain ⟨num, title, page⟩ := r
      have hp2 : matchPrimary line.data = some (num, title, page) := hp
      simp [tokStep, tokenizeGo, hp, hp2]
    | none =>
      have hp2 : matchPrimary line.data = none := hp
      cases ha : matchAlt line.toList with
      | some r =>
        obtain ⟨t2, p2⟩ := r
        have ha2 : matchAlt line.data = some (t2, p2) := ha
        simp [tokStep, tokenizeGo, hp, hp2, ha, ha2]
      | none =>
        have ha2 : matchAlt line.data = none := ha
        simp [tokStep, tokenizeGo, hp, hp2, ha, ha2]

/-- C6: the tokenizer is exactly the stateful line process the spec
describes — tokenizeSpec, an explicit-state fold whose step synthesizes
the chapter number prev_num.subcounter on a fallback match, resets the
subcounter to 1 whenever the primary pattern succeeds, increments it
after each successful fallback match, and yields no record (keeping the
state) for a line matching neither pattern. -/
theorem tokenize_eq_spec (lines : List String) :
    tokenize lines = tokenizeSpec lines := by
  have h := tokenizeGo_foldl lines [] ⟨"", 1⟩
  simpa [tokenize, tokenizeSpec] using h.symm

/-! ### Pages are matched digit strings -/

theorem splitTitlePage_digits :
    ∀ (cs t p : List Char), splitTitlePage cs = some (t, p) →
      p ≠ [] ∧ p.all isDigitCh = true := by
  intro cs
  induction cs with
  | nil => intro t p h; simp [splitTitlePage] at h
  | cons c rest ih =>
    intro t p h
    rw [splitTitlePage] at h
    cases hr : splitTitlePage rest with
    | some tp =>
      obtain ⟨t1, p1⟩ := tp
      rw [hr] at h
      simp only [Option.some.injEq, Prod.mk.injEq] at h
      obtain ⟨ht, hp⟩ := h
      exact hp ▸ ih t1 p1 hr
    | none =>
      rw [hr] at h
      by_cases hc : (isSpaceCh c && !rest.isEmpty && rest.all isDigitCh) = true
      · rw [if_pos hc] at h
        simp only [Option.some.injEq, Prod.mk.injEq] at h
        obtain ⟨ht, hp⟩ := h
        subst hp
        simp only [Bool.and_eq_true, Bool.not_eq_true'] at hc
        refine ⟨?_, hc.2⟩
        intro he
        subst he
        simp at hc
      · rw [if_neg hc] at h
        cases h

theorem afterNum_digits (numCs cs : List Char) (num title page : String)
    (h : afterNum numCs cs = some (num, title, page)) :
    page.toList ≠ [] ∧ page.toList.all isDigitCh = true := by
  cases cs with
  | nil => rw [afterNum] at h; exact Option.noConfusion h
  | cons c tail =>
    rw [afterNum] at h
    by_cases hc : isSpaceCh c = true
    · rw [if_pos hc] at h
      cases hs : splitTitlePage tail with
      | none => rw [hs] at h; simp at h
      | some tp =>
        obtain ⟨t1, p1⟩ := tp
        rw [hs] at h
        simp only [Option.map_some', Option.some.injEq, Prod.mk.injEq] at h
        obtain ⟨h1, h2, h3⟩ := h
        have hd := splitTitlePage_digits tail t1 p1 hs
        have hpl : page.toList = p1 := by rw [← h3]; rfl
        rw [hpl]
        exact hd
    · rw [if_neg hc] at h
      cases h

theorem tryNumBack_digits (pre : List Char) :
    ∀ (runRev rest : List Char) (num title page : String),
      tryNumBack pre runRev rest = some (num, title, page) →
      page.toList ≠ [] ∧ page.toList.all isDigitCh = true := by
  intro runRev
  induction runRev with
  | nil =>
    intro rest num title page h
    rw [tryNumBack] at h
    cases ha : afterNum (pre ++ List.reverse []) rest with
    | some r => rw [ha] at h; cases h; exact afterNum_digits _ _ _ _ _ ha
    | none => rw [ha] at h; cases h
  | cons c rs ih =>
    intro rest num title page h
    rw [tryNumBack] at h
    cases ha : afterNum (pre ++ List.reverse (c :: rs)) rest with
    | some r => rw [ha] at h; cases h; exact afterNum_digits _ _ _ _ _ ha
    | none => rw [ha] at h; exact ih (c :: rest) num title page h

theorem tryStar_digits (pre s : List Char) (num title page : String)
    (h : tryStar pre s = some (num, title, page)) :
    page.toList ≠ [] ∧ page.toList.all isDigitCh = true :=
  tryNumBack_digits pre _ _ num title page h

theorem matchPrimary_digits (cs : List Char) (num title page : String)
    (h : matchPrimary cs = some (num, title, page)) :
    page.toList ≠ [] ∧ page.toList.all isDigitCh = true := by
  match cs with
  | [] => exact tryStar_digits [] [] num title page h
  | [u] => exact tryStar_digits [] [u] num title page h
  | u :: d :: rest =>
    rw [matchPrimary] at h
    by_cases hg : (isUpperCh u && d == '.') = true
    · rw [if_pos hg] at h
      cases ht : tryStar [u, d] rest with
      | some r => rw [ht] at h; cases h; exact tryStar_digits _ _ num title page ht
      | none => rw [ht] at h; exact tryStar_digits _ _ num title page h
    · rw [if_neg hg] at h
      exact tryStar_digits _ _ num title page h

theorem matchAlt_digits (cs : List Char) (title page : String)
    (h : matchAlt cs = some (title, page)) :
    page.toList ≠ [] ∧ page.toList.all isDigitCh = true := by
  rw [matchAlt] at h
  cases hs : splitTitlePage cs with
  | none => rw [hs] at h; cases h
  | some tp =>
    obtain ⟨t1, p1⟩ := tp
    rw [hs] at h
    simp only [Option.map_some', Option.some.injEq, Prod.mk.injEq] at h
    obtain ⟨h1, h2⟩ := h
    have hd := splitTitlePage_digits cs t1 p1 hs
    have hpl : page.toList = p1 := by rw [← h2]; rfl
    rw [hpl]
    exact hd

theorem tokenizeGo_pages (lines : List String) :
    ∀ (pn : String) (c : Nat) (r : Record), r ∈ tokenizeGo lines pn c →
      ∃ s, r.2.2 = PyVal.str s ∧ s ≠ "" ∧ s.toList.all isDigitCh = true := by
  induction lines with
  | nil => intro pn c r h; simp [tokenizeGo] at h
  | cons line rest ih =>
    intro pn c r h
    rw [tokenizeGo] at h
    cases hp : matchPrimary line.toList with
    | some x =>
      obtain ⟨num, title, page⟩ := x
      rw [hp] at h
      rcases List.mem_cons.mp h with h1 | h1
      · subst h1
        have hd := matchPrimary_digits line.toList num title page hp
        refine ⟨page, rfl, ?_, hd.2⟩
        intro he
        exact hd.1 (by rw [he]; rfl)
      · exact ih num 1 r h1
    | none =>
      rw [hp] at h
      cases ha : matchAlt line.toList with
      | some x =>
        obtain ⟨title, page⟩ := x
        rw [ha] at h
        rcases List.mem_cons.mp h with h1 | h1
        · subst h1
          have hd := matchAlt_digits line.toList title page ha
          refine ⟨page, rfl, ?_, hd.2⟩
          intro he
          exact hd.1 (by rw [he]; rfl)
        · exact ih pn (c + 1) r h1
      | none =>
        rw [ha] at h
        exact ih pn c r h

/-- C9: every record tokenize yields carries as its page the matched
digit string (a nonempty all-digit string), not an integer; the
conversion to an integer happens only inside apply_page_offset, every
output of which carries an integer page — so records bypassing the
normalizer keep string pages, at odds with the data model's integer
page. -/
theorem tokenize_page_is_string (lines : List String) (r : Record)
    (hr : r ∈ tokenize lines) :
    (∃ s, r.2.2 = PyVal.str s ∧ s ≠ "" ∧ s.toList.all isDigitCh = true) ∧
      ∀ (records : List Record) (offset : Int) (q : Record),
        q ∈ apply_page_offset records offset →
          ∃ m : Int, q.2.2 = PyVal.int m := by
  refine ⟨tokenizeGo_pages lines "" 1 r hr, ?_⟩
  intro records offset q hq
  rw [apply_page_offset] at hq
  obtain ⟨p, hp, hpe⟩ := List.mem_map.mp hq
  exact ⟨pyToInt p.2.2 + offset, by rw [← hpe]⟩

/-- Witness for C9 on the line "1. Intro 2". -/
theorem tokenize_page_is_string_witness :
    ∃ s, (("1.", "Intro", PyVal.str "2") : Record).2.2 = PyVal.str s ∧
      s ≠ "" ∧ s.toList.all isDigitCh = true :=
  (tokenize_page_is_string ["1. Intro 2"] ("1.", "Intro", PyVal.str "2")
    (by decide)).1

/-! ### Tree shape invariants -/

theorem tree_ize_roots_sublist_fuel :
    ∀ (n : Nat) (l : List Record), l.length ≤ n →
      List.Sublist
        ((tree_ize get_matching_prfx get_matching_prfx_subperm l).map Node.data)
        l := by
  intro n
  induction n with
  | zero =>
    intro l hl
    have hnil : l = [] := List.eq_nil_of_length_eq_zero (Nat.le_zero.mp hl)
    subst hnil
    simp [tree_ize]
  | succ n ih =>
    intro l hl
    match l with
    | [] => simp [tree_ize]
    | parent :: rest =>
      have hrest : rest.length ≤ n := by
        simpa [Nat.succ_le_succ_iff] using hl
      rw [tree_ize]
      simp only [List.map_cons, Node.data]
      exact List.Sublist.cons₂ parent
        ((ih _ (le_trans (length_foldl_pyremove _ _) hrest)).trans
          (foldl_pyremove_sublist _ rest))

theorem tree_ize_inv_fuel :
    ∀ (n : Nat) (l : List Record) (node : Node),
      l.length ≤ n →
      node ∈ preorder (tree_ize get_matching_prfx get_matching_prfx_subperm l) →
      (∀ c ∈ node.children,
        startswith (Node.data c).1 (Node.data node).1 = true) ∧
        List.Sublist (node.children.map Node.data) l := by
  intro n
  induction n with
  | zero =>
    intro l node hl hm
    have hnil : l = [] := List.eq_nil_of_length_eq_zero (Nat.le_zero.mp hl)
    subst hnil
    simp [tree_ize, preorder] at hm
  | succ n ih =>
    intro l node hl hm
    match l with
    | [] => simp [tree_ize, preorder] at hm
    | parent :: rest =>
      have hrest : rest.length ≤ n := by
        simpa [Nat.succ_le_succ_iff] using hl
      have hch_len : (get_matching_prfx parent rest).length ≤ n :=
        le_trans (get_matching_prfx_sublist parent rest).length_le hrest
      have hrem_len :
          (List.foldl pyremove rest (get_matching_prfx parent rest)).length ≤ n :=
        le_trans (length_foldl_pyremove _ _) hrest
      rw [tree_ize, preorder] at hm
      rcases List.mem_cons.mp hm with h1 | h1
      · subst h1
        have hroots := tree_ize_roots_sublist_fuel n
          (get_matching_prfx parent rest) hch_len
        constructor
        · intro c hc
          have hcd : Node.data c ∈ get_matching_prfx parent rest :=
            hroots.subset (List.mem_map_of_mem Node.data hc)
          rw [get_matching_prfx] at hcd
          have := List.of_mem_filter hcd
          simpa [Node.data] using this
        · exact (hroots.trans (get_matching_prfx_sublist parent rest)).trans
            (List.sublist_cons_self parent rest)
      · rcases List.mem_append.mp h1 with h2 | h2
        · have hr := ih _ node hch_len h2
          exact ⟨hr.1, hr.2.trans ((get_matching_prfx_sublist parent rest).trans
            (List.sublist_cons_self parent rest))⟩
        · have hr := ih _ node hrem_len h2
          exact ⟨hr.1, hr.2.trans ((foldl_pyremove_sublist _ rest).trans
            (List.sublist_cons_self parent rest))⟩

/-- C7 amended: in every tree that tree_ize builds with the default
policy, every child node's chapter number has its parent node's chapter
number as a string prefix — not necessarily a proper one, because
get_matching_prfx uses startswith, which also accepts an equal chapter
number — and the direct children of every node appear in their original
input order (their records form a sublist of the input list). -/
theorem tree_ize_children_inv (records : List Record) (node : Node)
    (h : node ∈ preorder (tree_ize get_matching_prfx get_matching_prfx_subperm
      records)) :
    (∀ c ∈ node.children,
      startswith (Node.data c).1 (Node.data node).1 = true) ∧
      List.Sublist (node.children.map Node.data) records :=
  tree_ize_inv_fuel records.length records node le_rfl h

/-- Witness for C7 amended: the root node of a singleton input. -/
theorem tree_ize_children_inv_witness :
    (∀ c ∈ (Node.mk ("1.", "Intro", PyVal.int 2) []).children,
      startswith (Node.data c).1
        (Node.data (Node.mk ("1.", "Intro", PyVal.int 2) [])).1 = true) ∧
      List.Sublist
        ((Node.mk ("1.", "Intro", PyVal.int 2) []).children.map Node.data)
        [("1.", "Intro", PyVal.int 2)] :=
  tree_ize_children_inv [("1.", "Intro", PyVal.int 2)]
    (Node.mk ("1.", "Intro", PyVal.int 2) [])
    (by simp [tree_ize, get_matching_prfx, preorder])

theorem tree_ize_dup_eq :
    tree_ize get_matching_prfx get_matching_prfx_subperm
      [("1", "a", PyVal.int 1), ("1", "b", PyVal.int 2)] =
      [Node.mk ("1", "a", PyVal.int 1)
        [Node.mk ("1", "b", PyVal.int 2) []]] := by
  have hgm1 : get_matching_prfx ("1", "a", PyVal.int 1)
      [("1", "b", PyVal.int 2)] = [("1", "b", PyVal.int 2)] := by decide
  have hrm1 : List.foldl pyremove [("1", "b", PyVal.int 2)]
      [("1", "b", PyVal.int 2)] = [] := by decide
  have hgm2 : get_matching_prfx ("1", "b", PyVal.int 2) ([] : List Record) =
      [] := rfl
  simp [tree_ize, hgm1, hrm1, hgm2]

/-- C7 counterexample: on the records ("1", "a", 1) and ("1", "b", 2) the
default policy makes the second record a child of the first, and the
child's chapter number equals the parent's — a string prefix but not a
proper one — so the claimed proper-prefix invariant fails. -/
theorem tree_ize_proper_cex :
    ¬ ∀ node ∈ preorder (tree_ize get_matching_prfx get_matching_prfx_subperm
        [("1", "a", PyVal.int 1), ("1", "b", PyVal.int 2)]),
      ∀ c ∈ node.children,
        startswith (Node.data c).1 (Node.data node).1 = true ∧
          (Node.data c).1 ≠ (Node.data node).1 := by
  intro hall
  rw [tree_ize_dup_eq] at hall
  have h1 := hall
    (Node.mk ("1", "a", PyVal.int 1) [Node.mk ("1", "b", PyVal.int 2) []])
    (by simp [preorder])
  have h2 := h1 (Node.mk ("1", "b", PyVal.int 2) [])
    (by simp [Node.children])
  exact h2.2 rfl

end Tox
